import Mathlib

set_option maxHeartbeats 1000000

namespace Hashline

/-!
Shallow embedding of the hashline editor (src/hashline/src/main.rs).

Machine integers are modelled as `Nat` with explicit reduction modulo 2^32
where the Rust code wraps (the xxh32 hash works on `u32`).  Fallible Rust
code (`anyhow::Result`) is modelled with `Except EditError`.
-/

/-- Reduction modulo 2^32: models `u32` wrapping arithmetic. -/
def m32 (n : Nat) : Nat := n % 4294967296

def xxhPrime1 : Nat := 2654435761
def xxhPrime2 : Nat := 2246822519
def xxhPrime3 : Nat := 3266489917
def xxhPrime4 : Nat := 668265263
def xxhPrime5 : Nat := 374761393

/-- 32-bit left rotation (the argument is assumed `< 2^32`). -/
def rotl32 (x r : Nat) : Nat :=
  m32 (Nat.lor (Nat.shiftLeft x r) (Nat.shiftRight x (32 - r)))

/-- One xxh32 accumulator round. -/
def xxhRound (acc lane : Nat) : Nat :=
  m32 (rotl32 (m32 (acc + m32 (lane * xxhPrime2))) 13 * xxhPrime1)

/-- Little-endian 32-bit word from four bytes. -/
def u32le (b0 b1 b2 b3 : Nat) : Nat := b0 + b1 * 256 + b2 * 65536 + b3 * 16777216

/-- Consume 16-byte stripes with the four xxh32 accumulators (the Rust loop
`while remaining.len() >= 16`), returning the accumulators and the remainder. -/
def xxhStripes (v1 v2 v3 v4 : Nat) :
    List Nat → (Nat × Nat × Nat × Nat) × List Nat
  | b0 :: b1 :: b2 :: b3 :: b4 :: b5 :: b6 :: b7 ::
      b8 :: b9 :: b10 :: b11 :: b12 :: b13 :: b14 :: b15 :: rest =>
    xxhStripes (xxhRound v1 (u32le b0 b1 b2 b3)) (xxhRound v2 (u32le b4 b5 b6 b7))
      (xxhRound v3 (u32le b8 b9 b10 b11)) (xxhRound v4 (u32le b12 b13 b14 b15)) rest
  | l => ((v1, v2, v3, v4), l)

/-- Consume remaining 4-byte words in the xxh32 tail. -/
def xxhTail4 (acc : Nat) : List Nat → Nat × List Nat
  | b0 :: b1 :: b2 :: b3 :: rest =>
    xxhTail4 (m32 (rotl32 (m32 (acc + m32 (u32le b0 b1 b2 b3 * xxhPrime3))) 17 * xxhPrime4)) rest
  | l => (acc, l)

/-- Consume remaining single bytes in the xxh32 tail. -/
def xxhTailBytes (acc : Nat) : List Nat → Nat
  | [] => acc
  | b :: rest => xxhTailBytes (m32 (rotl32 (m32 (acc + m32 (b * xxhPrime5))) 11 * xxhPrime1)) rest

/-- Final xxh32 avalanche mix. -/
def xxhAvalanche (acc : Nat) : Nat :=
  let h1 := Nat.xor acc (Nat.shiftRight acc 15)
  let h2 := m32 (h1 * xxhPrime2)
  let h3 := Nat.xor h2 (Nat.shiftRight h2 13)
  let h4 := m32 (h3 * xxhPrime3)
  Nat.xor h4 (Nat.shiftRight h4 16)

/-- xxh32 over a byte list: models `xxhash_rust::xxh32::xxh32(bytes, seed)`. -/
def xxh32 (input : List Nat) (seed : Nat) : Nat :=
  let len := input.length
  let start : Nat × List Nat :=
    if 16 ≤ len then
      let s := xxhStripes (m32 (seed + xxhPrime1 + xxhPrime2)) (m32 (seed + xxhPrime2))
        (m32 seed) (m32 (seed + 4294967296 - xxhPrime1)) input
      (m32 (rotl32 s.1.1 1 + rotl32 s.1.2.1 7 + rotl32 s.1.2.2.1 12 + rotl32 s.1.2.2.2 18),
        s.2)
    else
      (m32 (seed + xxhPrime5), input)
  let tail := xxhTail4 (m32 (start.1 + len)) start.2
  xxhAvalanche (xxhTailBytes tail.1 tail.2)

/-- UTF-8 encoding of one scalar value: models hashing `normalized.as_bytes()`. -/
def utf8Bytes (c : Char) : List Nat :=
  let n := c.toNat
  if n < 128 then [n]
  else if n < 2048 then [192 + n / 64, 128 + n % 64]
  else if n < 65536 then [224 + n / 4096, 128 + n / 64 % 64, 128 + n % 64]
  else [240 + n / 262144, 128 + n / 4096 % 64, 128 + n / 64 % 64, 128 + n % 64]

def strBytes (cs : List Char) : List Nat := (cs.map utf8Bytes).flatten

/-- Unicode `White_Space` property: models Rust `char::is_whitespace`. -/
def rustIsWhitespace (c : Char) : Bool :=
  let n := c.toNat
  (9 ≤ n && n ≤ 13) || n == 32 || n == 133 || n == 160 || n == 5760 ||
    (8192 ≤ n && n ≤ 8202) || n == 8232 || n == 8233 || n == 8239 || n == 8287 || n == 12288

/-- The normalization loop of `compute_line_hash`: drop `'\r'` and every
whitespace character, keeping the rest in order. -/
def stripLineWhitespace (line : String) : List Char :=
  line.data.filter (fun ch => !(ch == '\r' || rustIsWhitespace ch))

/-- One lowercase hex digit (`0..15`). -/
def hexDigitChar (n : Nat) : Char :=
  if n < 10 then Char.ofNat (48 + n) else Char.ofNat (87 + n)

/-- `format!("{:04x}", n)` for `n < 2^16`: exactly four lowercase hex digits. -/
def toHex4 (n : Nat) : String :=
  String.mk [hexDigitChar (n / 4096 % 16), hexDigitChar (n / 256 % 16),
    hexDigitChar (n / 16 % 16), hexDigitChar (n % 16)]

/-- `compute_line_hash` (main.rs:231): strip whitespace, xxh32 with seed 0 over the
remaining UTF-8 bytes, mask to the low 16 bits, render as 4 lowercase hex digits. -/
def compute_line_hash (line : String) : String :=
  toHex4 (Nat.land (xxh32 (strBytes (stripLineWhitespace line)) 0) 65535)

/-! ## Generic string helpers (models of Rust `str`/`String` operations) -/

/-- Rust `s.split(sep)`: always yields at least one (possibly empty) segment. -/
def splitSep (sep : Char) : List Char → List (List Char)
  | [] => [[]]
  | c :: rest =>
    let r := splitSep sep rest
    if c == sep then [] :: r
    else
      match r with
      | [] => [[c]]
      | seg :: segs => (c :: seg) :: segs

/-- Index (in characters) of the first occurrence of `needle` in `hay`:
models Rust `str::find` for a string pattern. -/
def findSubIdx (hay needle : List Char) : Option Nat :=
  if needle.isPrefixOf hay then some 0
  else
    match hay with
    | [] => none
    | _ :: t => (findSubIdx t needle).map (· + 1)

/-- Worker for `replaceAllSub`.  Each step of the Rust replacement loop shortens
the haystack by at least one character (the needle is non-empty whenever the
first branch is taken), so a fuel of `hay.length` never runs out: at fuel `0`
the haystack is already empty. -/
def replaceAllGo (needle repl : List Char) : Nat → List Char → List Char
  | 0, hay => hay
  | f + 1, hay =>
    if needle ≠ [] ∧ needle.isPrefixOf hay then
      repl ++ replaceAllGo needle repl f (hay.drop needle.length)
    else
      match hay with
      | [] => []
      | c :: t => c :: replaceAllGo needle repl f t

/-- Replace every non-overlapping occurrence of `needle`, left to right:
models Rust `str::replace`. -/
def replaceAllSub (needle repl hay : List Char) : List Char :=
  replaceAllGo needle repl hay.length hay

/-- Rust `str::trim`: drop Unicode whitespace from both ends. -/
def trimRust (cs : List Char) : List Char :=
  ((cs.dropWhile rustIsWhitespace).reverse.dropWhile rustIsWhitespace).reverse

def asciiLowerChar (c : Char) : Char :=
  if 65 ≤ c.toNat ∧ c.toNat ≤ 90 then Char.ofNat (c.toNat + 32) else c

/-- Rust `str::to_ascii_lowercase`. -/
def toAsciiLower (cs : List Char) : List Char := cs.map asciiLowerChar

def isAsciiDigit (c : Char) : Bool := 48 ≤ c.toNat && c.toNat ≤ 57

def digitsToNat (cs : List Char) : Nat :=
  cs.foldl (fun acc c => acc * 10 + (c.toNat - 48)) 0

/-- Rust `str::parse::<usize>()`: an optional leading `+`, then one or more
ASCII digits, and the value must fit in 64-bit `usize`. -/
def parseUsize (cs : List Char) : Option Nat :=
  let ds := match cs with
    | c :: rest => if c == '+' then rest else cs
    | [] => cs
  if ds = [] then none
  else if ds.all isAsciiDigit then
    if digitsToNat ds < 18446744073709551616 then some (digitsToNat ds) else none
  else none

/-! ## Line-ending filter (main.rs:196-229) -/

/-- `detect_line_ending`: CRLF when the raw text contains one, else LF. -/
def detect_line_ending (s : String) : String :=
  if (findSubIdx s.data [Char.ofNat 13, Char.ofNat 10]).isSome then
    String.mk [Char.ofNat 13, Char.ofNat 10]
  else
    String.mk [Char.ofNat 10]

/-- `normalize_to_lf`: replace every CRLF with LF. -/
def normalize_to_lf (s : String) : String :=
  String.mk (replaceAllSub [Char.ofNat 13, Char.ofNat 10] [Char.ofNat 10] s.data)

/-- `restore_line_endings`. -/
def restore_line_endings (s : String) (ending : String) : String :=
  if ending = String.mk [Char.ofNat 10] then s
  else String.mk (replaceAllSub [Char.ofNat 10] ending.data s.data)

/-- `split_preserve_last_empty`: split on LF, dropping exactly one final empty
segment when the text ends with LF. -/
def split_preserve_last_empty (s : String) : List String :=
  let parts := (splitSep '\n' s.data).map String.mk
  if s.data.getLast? = some '\n' then
    match parts.getLast? with
    | some last => if last = String.mk [] then parts.dropLast else parts
    | none => parts
  else parts

/-! ## Data model and errors -/

instance {ε α : Type _} [DecidableEq ε] [DecidableEq α] : DecidableEq (Except ε α)
  | .error a, .error b =>
    if h : a = b then .isTrue (congrArg Except.error h)
    else .isFalse (fun he => h (Except.error.inj he))
  | .error _, .ok _ => .isFalse (fun he => Except.noConfusion he)
  | .ok _, .error _ => .isFalse (fun he => Except.noConfusion he)
  | .ok a, .ok b =>
    if h : a = b then .isTrue (congrArg Except.ok h)
    else .isFalse (fun he => h (Except.ok.inj he))

/-- Error kinds of the edit pipeline.  The Rust code reports `anyhow` string
errors; each distinct `bail!` site gets its own constructor here. -/
inductive EditError
  /-- `parse_line_ref` failures (malformed anchor token). -/
  | invalidAnchor : String → EditError
  /-- `insert_after.text must be non-empty`. -/
  | emptyInsertText : EditError
  /-- `replace.old_text must be non-empty`. -/
  | emptyOldText : EditError
  /-- `validate_or_relocate`: anchor line out of the current bounds. -/
  | resolveOutOfRange : Nat → Nat → EditError
  /-- `replace_lines.start_anchor line must be <= end_anchor line`. -/
  | invalidRange : EditError
  /-- the rendered mismatch report (stale anchors), with the mismatch list. -/
  | staleAnchors : List (Nat × String × String) → EditError
  /-- application loop: `line {} does not exist` (defensive re-check). -/
  | applyMissingLine : Nat → Nat → EditError
  /-- application loop: `range out of bounds` (defensive re-check). -/
  | applyRangeOOB : Nat → EditError
  /-- application loop: `invalid range: start > end` (defensive re-check). -/
  | applyInvalidRange : EditError
  /-- `replace.old_text not found`. -/
  | notFound : EditError
  /-- `main`: `no changes made (edits produced identical content)`. -/
  | noEffectiveChange : EditError
deriving DecidableEq

structure LineRef where
  line : Nat
  hash : String
deriving DecidableEq

structure SetLine where
  anchor : String
  new_text : String
deriving DecidableEq

structure ReplaceLines where
  start_anchor : String
  end_anchor : String
  new_text : String
deriving DecidableEq

structure InsertAfter where
  anchor : String
  text : String
deriving DecidableEq

structure ReplaceText where
  old_text : String
  new_text : String
  all : Option Bool
deriving DecidableEq

inductive HashlineEdit
  | setLine : SetLine → HashlineEdit
  | replaceLines : ReplaceLines → HashlineEdit
  | insertAfter : InsertAfter → HashlineEdit
  | replace : ReplaceText → HashlineEdit
deriving DecidableEq

/-- The internal `ParsedSpec` enum of `apply_hashline_edits` (main.rs:297-303).
The unused `usize` index component of `parsed: Vec<(usize, ParsedSpec)>` is
dropped: the source never reads it. -/
inductive ParsedSpec
  | Single : LineRef → String → ParsedSpec
  | Range : LineRef → LineRef → String → ParsedSpec
  | InsertAfter : LineRef → String → ParsedSpec
  | ReplaceText : String → String → Bool → ParsedSpec
deriving DecidableEq

abbrev Mismatch := Nat × String × String

/-! ## Anchor parser (main.rs:248-269) -/

/-- `parse_line_ref`: split on `:`, take exactly two parts, parse the line as a
positive `usize`, trim and lower-case the hash portion, reject when empty. -/
def parse_line_ref (s : String) : Except EditError LineRef :=
  match splitSep ':' s.data with
  | [lineS, hashS] =>
    match parseUsize lineS with
    | none => .error (.invalidAnchor s)
    | some line =>
      if line = 0 then .error (.invalidAnchor s)
      else
        let hash := toAsciiLower (trimRust hashS)
        if hash = [] then .error (.invalidAnchor s)
        else .ok { line := line, hash := String.mk hash }
  | _ => .error (.invalidAnchor s)

/-! ## Fingerprint index (main.rs:276-292) -/

/-- First index of `h` in a list (model of the `first_seen` map lookup). -/
def firstIdx (h : String) : List String → Option Nat
  | [] => none
  | x :: xs => if x = h then some 0 else (firstIdx h xs).map (· + 1)

/-- Number of lines whose fingerprint is `h` (model of the `counts` map). -/
def hashCount (lines : List String) (h : String) : Nat :=
  (lines.map compute_line_hash).count h

/-- The `unique` map: a 1-indexed line for `h` exactly when `h` occurs once. -/
def uniqueLine (lines : List String) (h : String) : Option Nat :=
  if hashCount lines h = 1 then
    (firstIdx h (lines.map compute_line_hash)).map (· + 1)
  else none

/-! ## Anchor resolver (main.rs:441-463) -/

/-- `validate_or_relocate`: fail on out-of-range, accept a matching hash,
relocate via the unique-hash map, otherwise record a mismatch. -/
def validate_or_relocate (r : LineRef) (lines : List String)
    (unique : String → Option Nat) (mismatches : List Mismatch) :
    Except EditError (LineRef × List Mismatch) :=
  if r.line < 1 ∨ r.line > lines.length then
    .error (.resolveOutOfRange r.line lines.length)
  else
    let actual := compute_line_hash (lines.getD (r.line - 1) (String.mk []))
    if actual = r.hash then .ok (r, mismatches)
    else
      match unique r.hash with
      | some relocated => .ok ({ r with line := relocated }, mismatches)
      | none => .ok (r, mismatches ++ [(r.line, r.hash, actual)])

/-! ## Edit batch applier (main.rs:271-439) -/

/-- The parse loop of `apply_hashline_edits` (main.rs:307-342). -/
def parseSpecs : List HashlineEdit → Except EditError (List ParsedSpec)
  | [] => .ok []
  | e :: rest =>
    let one : Except EditError ParsedSpec :=
      match e with
      | .setLine v =>
        match parse_line_ref v.anchor with
        | .error err => .error err
        | .ok r => .ok (.Single r v.new_text)
      | .replaceLines v =>
        match parse_line_ref v.start_anchor with
        | .error err => .error err
        | .ok s =>
          match parse_line_ref v.end_anchor with
          | .error err => .error err
          | .ok en => .ok (.Range s en v.new_text)
      | .insertAfter v =>
        match parse_line_ref v.anchor with
        | .error err => .error err
        | .ok a =>
          if v.text = String.mk [] then .error .emptyInsertText
          else .ok (.InsertAfter a v.text)
      | .replace v =>
        if v.old_text = String.mk [] then .error .emptyOldText
        else .ok (.ReplaceText v.old_text v.new_text (v.all.getD false))
    match one with
    | .error err => .error err
    | .ok spec =>
      match parseSpecs rest with
      | .error err => .error err
      | .ok tail => .ok (spec :: tail)

/-- The validate-and-relocate loop of `apply_hashline_edits` (main.rs:345-358),
threading the mismatch accumulator and rewriting relocated references. -/
def validateSpecs (lines : List String) (unique : String → Option Nat) :
    List ParsedSpec → List Mismatch → Except EditError (List ParsedSpec × List Mismatch)
  | [], ms => .ok ([], ms)
  | spec :: rest, ms =>
    match spec with
    | .Single r dst =>
      match validate_or_relocate r lines unique ms with
      | .error err => .error err
      | .ok (r2, ms2) =>
        match validateSpecs lines unique rest ms2 with
        | .error err => .error err
        | .ok (tail, ms3) => .ok (.Single r2 dst :: tail, ms3)
    | .Range s e dst =>
      match validate_or_relocate s lines unique ms with
      | .error err => .error err
      | .ok (s2, ms2) =>
        match validate_or_relocate e lines unique ms2 with
        | .error err => .error err
        | .ok (e2, ms3) =>
          if s2.line > e2.line then .error .invalidRange
          else
            match validateSpecs lines unique rest ms3 with
            | .error err => .error err
            | .ok (tail, ms4) => .ok (.Range s2 e2 dst :: tail, ms4)
    | .InsertAfter a dst =>
      match validate_or_relocate a lines unique ms with
      | .error err => .error err
      | .ok (a2, ms2) =>
        match validateSpecs lines unique rest ms2 with
        | .error err => .error err
        | .ok (tail, ms3) => .ok (.InsertAfter a2 dst :: tail, ms3)
    | .ReplaceText old new_ al =>
      match validateSpecs lines unique rest ms with
      | .error err => .error err
      | .ok (tail, ms2) => .ok (.ReplaceText old new_ al :: tail, ms2)

/-- The sort key of main.rs:366-373. -/
def sort_key : ParsedSpec → Nat × Nat
  | .Single r _ => (r.line, 0)
  | .Range _ e _ => (e.line, 0)
  | .InsertAfter a _ => (a.line, 1)
  | .ReplaceText _ _ _ => (0, 9)

/-- Lexicographic order on sort keys (Rust tuple `cmp`, `≤` direction). -/
def keyLe (x y : Nat × Nat) : Prop :=
  x.1 < y.1 ∨ (x.1 = y.1 ∧ x.2 ≤ y.2)

instance : DecidableRel keyLe := fun x y => by
  unfold keyLe
  infer_instance

/-- `a` may precede `b` in the sorted batch: descending by key
(`parsed.sort_by(|a, b| b_key.cmp(a_key))`). -/
def specOrder (a b : ParsedSpec) : Prop := keyLe (sort_key b) (sort_key a)

instance : DecidableRel specOrder := fun a b => by
  unfold specOrder
  infer_instance

/-- The sort of main.rs:374-379: Rust `sort_by` is a stable sort; a stable
insertion sort over the same total preorder computes the same list. -/
def sortSpecs (l : List ParsedSpec) : List ParsedSpec := l.insertionSort specOrder

/-- `split_dst_lines` (main.rs:433-439). -/
def split_dst_lines (dst : String) : List String :=
  if dst = String.mk [] then []
  else (splitSep '\n' dst.data).map String.mk

/-- Rust `lines.join("\n")`. -/
def joinNL (lines : List String) : String :=
  String.mk ((List.intersperse [Char.ofNat 10] (lines.map String.data)).flatten)

/-- Rust `joined.split('\n').collect()`. -/
def splitNL (s : String) : List String := (splitSep '\n' s.data).map String.mk

/-- One iteration of the application loop (main.rs:381-428). -/
def applyOne (lines : List String) : ParsedSpec → Except EditError (List String)
  | .Single r dst =>
    let dst_lines := split_dst_lines dst
    let i := r.line - 1
    if i ≥ lines.length then .error (.applyMissingLine r.line lines.length)
    else .ok (lines.take i ++ dst_lines ++ lines.drop (i + 1))
  | .Range s e dst =>
    let dst_lines := split_dst_lines dst
    let si := s.line - 1
    let ei := e.line - 1
    if si ≥ lines.length ∨ ei ≥ lines.length then .error (.applyRangeOOB lines.length)
    else if si > ei then .error .applyInvalidRange
    else .ok (lines.take si ++ dst_lines ++ lines.drop (ei + 1))
  | .InsertAfter a dst =>
    let dst_lines := split_dst_lines dst
    if a.line > lines.length then .error (.applyMissingLine a.line lines.length)
    else .ok (lines.take a.line ++ dst_lines ++ lines.drop a.line)
  | .ReplaceText old new_ al =>
    if al then
      .ok (splitNL (String.mk (replaceAllSub old.data new_.data (joinNL lines).data)))
    else
      let joined := joinNL lines
      match findSubIdx joined.data old.data with
      | some pos =>
        .ok (splitNL (String.mk
          (joined.data.take pos ++ new_.data ++ joined.data.drop (pos + old.data.length))))
      | none => .error .notFound

/-- The application loop over the sorted batch. -/
def applySpecs (lines : List String) : List ParsedSpec → Except EditError (List String)
  | [] => .ok lines
  | spec :: rest =>
    match applyOne lines spec with
    | .error err => .error err
    | .ok lines2 => applySpecs lines2 rest

/-- `apply_hashline_edits` (main.rs:271-431). -/
def apply_hashline_edits (lines : List String) (edits : List HashlineEdit) :
    Except EditError (List String) :=
  if edits.isEmpty then .ok lines
  else
    match parseSpecs edits with
    | .error err => .error err
    | .ok parsed =>
      match validateSpecs lines (uniqueLine lines) parsed [] with
      | .error err => .error err
      | .ok (validated, mismatches) =>
        if mismatches ≠ [] then .error (.staleAnchors mismatches)
        else applySpecs lines (sortSpecs validated)

/-! ## The `edit` command of `main` (main.rs:130-178), after JSON decoding.
File I/O is modelled as a one-field state: `fs::write` is the only state
change, and it happens only on the success path. -/

structure FsState where
  content : String
deriving DecidableEq

/-- `raw.ends_with('\n')`. -/
def hadFinalNewline (raw : String) : Bool := raw.data.getLast? == some '\n'

/-- The pre-edit line sequence `old_lines` computed by `main`. -/
def oldLinesOf (st : FsState) : List String :=
  split_preserve_last_empty (normalize_to_lf st.content)

/-- The output string written on success (main.rs:170-174). -/
def renderOutput (raw : String) (new_lines : List String) : String :=
  let out := joinNL new_lines
  let out2 := if hadFinalNewline raw then out ++ String.mk [Char.ofNat 10] else out
  restore_line_endings out2 (detect_line_ending raw)

/-- The `Command::Edit` arm of `main`: apply the batch, reject a no-op result,
write the file only on success. -/
def editCommand (st : FsState) (edits : List HashlineEdit) :
    FsState × Except EditError Unit :=
  let old_lines := oldLinesOf st
  match apply_hashline_edits old_lines edits with
  | .error e => (st, .error e)
  | .ok new_lines =>
    if old_lines = new_lines then (st, .error .noEffectiveChange)
    else ({ content := renderOutput st.content new_lines }, .ok ())

/-! ## Predicates used by the verification (derived views of the model) -/

def hexLowerChars : List Char := ("0123456789abcdef").data

def isReplaceSpec : ParsedSpec → Bool
  | .ReplaceText _ _ _ => true
  | _ => false

def isSetOrRangeSpec : ParsedSpec → Bool
  | .Single _ _ => true
  | .Range _ _ _ => true
  | _ => false

def isInsertSpec : ParsedSpec → Bool
  | .InsertAfter _ _ => true
  | _ => false

def isAnchorSpec : ParsedSpec → Bool
  | .ReplaceText _ _ _ => false
  | _ => true

/-- Lowest 1-indexed line an anchor-addressed spec touches. -/
def lowOf : ParsedSpec → Nat
  | .Single r _ => r.line
  | .Range s _ _ => s.line
  | .InsertAfter a _ => a.line
  | .ReplaceText _ _ _ => 0

/-- Highest 1-indexed line an anchor-addressed spec touches (the sort line). -/
def highOf : ParsedSpec → Nat
  | .Single r _ => r.line
  | .Range _ e _ => e.line
  | .InsertAfter a _ => a.line
  | .ReplaceText _ _ _ => 0

/-- The bounds established by the validation phase for one spec. -/
def specWF (len : Nat) (sp : ParsedSpec) : Prop :=
  isAnchorSpec sp = true → 1 ≤ lowOf sp ∧ lowOf sp ≤ highOf sp ∧ highOf sp ≤ len

/-- Two anchor-addressed specs touch disjoint line spans. -/
def disjointSpecs (a b : ParsedSpec) : Prop :=
  isAnchorSpec a = true → isAnchorSpec b = true →
    highOf a < lowOf b ∨ highOf b < lowOf a

/-- The result does not come from one of the two defensive out-of-bounds
re-checks of the application loop. -/
def noDefensive (res : Except EditError (List String)) : Prop :=
  match res with
  | .error (.applyMissingLine _ _) => False
  | .error (.applyRangeOOB _) => False
  | _ => True

instance : IsTotal ParsedSpec specOrder :=
  ⟨fun a b => by simp only [specOrder, keyLe]; omega⟩

instance : IsTrans ParsedSpec specOrder :=
  ⟨fun a b c hab hbc => by
    simp only [specOrder, keyLe] at hab hbc ⊢
    omega⟩

/-! ## Supporting lemmas -/

theorem filter_self_idem (p : Char → Bool) (l : List Char) :
    (l.filter p).filter p = l.filter p := by
  rw [List.filter_filter]
  simp

theorem stripLineWhitespace_idem (L : String) :
    stripLineWhitespace (String.mk (stripLineWhitespace L)) = stripLineWhitespace L :=
  filter_self_idem _ _

theorem hexDigitChar_mem : ∀ k < 16, hexDigitChar k ∈ hexLowerChars := by decide

theorem toHex4_chars (n : Nat) : ∀ c ∈ (toHex4 n).data, c ∈ hexLowerChars := by
  intro c hc
  have hd : (toHex4 n).data =
      [hexDigitChar (n / 4096 % 16), hexDigitChar (n / 256 % 16),
        hexDigitChar (n / 16 % 16), hexDigitChar (n % 16)] := rfl
  rw [hd] at hc
  simp only [List.mem_cons, List.not_mem_nil, or_false] at hc
  rcases hc with h | h | h | h
  all_goals rw [h]
  all_goals exact hexDigitChar_mem _ (Nat.mod_lt _ (by norm_num))

theorem splitSep_ne_nil (sep : Char) (l : List Char) : splitSep sep l ≠ [] := by
  cases l with
  | nil => simp [splitSep]
  | cons c rest =>
    simp only [splitSep]
    split
    · simp
    · cases h : splitSep sep rest <;> simp

theorem splitSep_length (sep : Char) (l : List Char) :
    (splitSep sep l).length = l.count sep + 1 := by
  induction l with
  | nil => rfl
  | cons c rest ih =>
    simp only [splitSep]
    by_cases hc : (c == sep) = true
    · rw [if_pos hc, List.count_cons, if_pos hc]
      simp [ih]
    · rw [if_neg hc, List.count_cons, if_neg hc]
      cases h : splitSep sep rest with
      | nil => exact absurd h (splitSep_ne_nil sep rest)
      | cons seg segs =>
        rw [h] at ih
        simpa using ih

theorem toAsciiLower_eq_nil_iff (l : List Char) : toAsciiLower l = [] ↔ l = [] := by
  simp [toAsciiLower]

/-- Full characterization of a successful anchor parse. -/
theorem parse_line_ref_ok_iff (s : String) (r : LineRef) :
    parse_line_ref s = .ok r ↔
      ∃ a b, splitSep ':' s.data = [a, b] ∧ parseUsize a = some r.line ∧ r.line ≠ 0 ∧
        trimRust b ≠ [] ∧ r.hash = String.mk (toAsciiLower (trimRust b)) := by
  constructor
  · intro h
    rcases hsp : splitSep ':' s.data with _ | ⟨a, _ | ⟨b, _ | ⟨c, rest⟩⟩⟩
    · simp only [parse_line_ref, hsp] at h
      exact absurd h (by simp)
    · simp only [parse_line_ref, hsp] at h
      exact absurd h (by simp)
    · cases hpu : parseUsize a with
      | none =>
        simp only [parse_line_ref, hsp, hpu] at h
        exact absurd h (by simp)
      | some n =>
        simp only [parse_line_ref, hsp, hpu] at h
        by_cases hn : n = 0
        · rw [if_pos hn] at h
          exact absurd h (by simp)
        · rw [if_neg hn] at h
          by_cases hh : toAsciiLower (trimRust b) = []
          · rw [if_pos hh] at h
            exact absurd h (by simp)
          · rw [if_neg hh] at h
            have hr := Except.ok.inj h
            refine ⟨a, b, rfl, ?_, ?_, ?_, ?_⟩
            · rw [← hr]; exact hpu
            · rw [← hr]; exact hn
            · exact fun hb => hh ((toAsciiLower_eq_nil_iff _).mpr hb)
            · rw [← hr]
    · simp only [parse_line_ref, hsp] at h
      exact absurd h (by simp)
  · rintro ⟨a, b, hsp, hpu, hn, hh, hhash⟩
    have hh2 : toAsciiLower (trimRust b) ≠ [] :=
      fun hx => hh ((toAsciiLower_eq_nil_iff _).mp hx)
    cases r with
    | mk rl rh =>
      simp only at hpu hn hhash
      subst hhash
      simp only [parse_line_ref, hsp, hpu, if_neg hn, if_neg hh2]

/-! ## Claim theorems -/

/-- C4: `compute_line_hash` strips every whitespace character (including
carriage returns) before hashing, so it is invariant under that stripping, and
its output is exactly 4 lowercase hex digits. -/
theorem claim_C4_fingerprint (L : String) :
    compute_line_hash L = compute_line_hash (String.mk (stripLineWhitespace L)) ∧
    (compute_line_hash L).length = 4 ∧
    ∀ c ∈ (compute_line_hash L).data, c ∈ hexLowerChars := by
  refine ⟨?_, rfl, ?_⟩
  · simp only [compute_line_hash, stripLineWhitespace_idem]
  · exact toHex4_chars _

/-- C5: a batch with zero edit operations is a no-op of the core edit
pipeline: `apply_hashline_edits` returns the input unchanged, with no error. -/
theorem claim_C5_empty_batch (lines : List String) :
    apply_hashline_edits lines [] = .ok lines := rfl

/-- C6: when applying the batch produces a line sequence identical to the
input, the `edit` command rejects the batch with `NoEffectiveChange` and the
file state is left untouched. -/
theorem claim_C6_no_effective_change (st : FsState) (edits : List HashlineEdit)
    (h : apply_hashline_edits (oldLinesOf st) edits = .ok (oldLinesOf st)) :
    editCommand st edits = (st, .error .noEffectiveChange) := by
  simp [editCommand, h]

/-- C6 witness: the empty batch on a two-line file reproduces the input, so the
command fails with `NoEffectiveChange` and does not write. -/
theorem claim_C6_no_effective_change_witness :
    editCommand { content := "x\ny" } [] = ({ content := "x\ny" }, .error .noEffectiveChange) :=
  claim_C6_no_effective_change { content := "x\ny" } [] (by decide)

/-- C1: applying one batch is all-or-nothing.  Whenever the `edit` command
fails with any error, the file state is exactly the pre-edit state; on success
the state is the render of the fully-applied batch, which differs from the
input line sequence. -/
theorem claim_C1_atomicity (st : FsState) (edits : List HashlineEdit) :
    (∀ e : EditError, (editCommand st edits).2 = .error e → (editCommand st edits).1 = st) ∧
    ((editCommand st edits).2 = .ok () → ∃ new_lines,
      apply_hashline_edits (oldLinesOf st) edits = .ok new_lines ∧
      new_lines ≠ oldLinesOf st ∧
      (editCommand st edits).1 = { content := renderOutput st.content new_lines }) := by
  cases happ : apply_hashline_edits (oldLinesOf st) edits with
  | error e =>
    refine ⟨fun e2 _ => ?_, fun hok => ?_⟩
    · simp [editCommand, happ]
    · simp [editCommand, happ] at hok
  | ok nl =>
    by_cases heq : oldLinesOf st = nl
    · subst heq
      refine ⟨fun e2 _ => ?_, fun hok => ?_⟩
      · simp [editCommand, happ]
      · simp [editCommand, happ] at hok
    · refine ⟨fun e2 he => ?_, fun _ => ⟨nl, rfl, fun hx => heq hx.symm, ?_⟩⟩
      · simp [editCommand, happ, heq] at he
      · simp [editCommand, happ, heq]

/-- C1 witness: a successful one-edit batch on `alpha\n` rewrites the file to
the rendered result `X\n`. -/
theorem claim_C1_atomicity_witness :
    (editCommand { content := "alpha\n" }
        [.setLine { anchor := "1:93c8", new_text := "X" }]).1 = { content := "X\n" } := by
  obtain ⟨nl, h1, _h2, h3⟩ :=
    (claim_C1_atomicity { content := "alpha\n" }
      [.setLine { anchor := "1:93c8", new_text := "X" }]).2 (by decide)
  have hc : apply_hashline_edits (oldLinesOf { content := "alpha\n" })
      [.setLine { anchor := "1:93c8", new_text := "X" }] = .ok ["X"] := by decide
  rw [hc] at h1
  have hnl : nl = ["X"] := (Except.ok.inj h1).symm
  rw [h3, hnl]
  decide

/-- C7: an anchor whose line exceeds the current line count makes
`validate_or_relocate` fail immediately with the fatal out-of-range error —
no mismatch is recorded and no relocation is attempted, whatever the unique-hash
index contains — and a batch containing such an anchor aborts with that error. -/
theorem claim_C7_out_of_range (r : LineRef) (lines : List String)
    (unique : String → Option Nat) (ms : List Mismatch)
    (h : r.line > lines.length) :
    validate_or_relocate r lines unique ms = .error (.resolveOutOfRange r.line lines.length) ∧
    ∀ anchor txt : String, parse_line_ref anchor = .ok r →
      apply_hashline_edits lines [.setLine { anchor := anchor, new_text := txt }] =
        .error (.resolveOutOfRange r.line lines.length) := by
  have hval : ∀ (u : String → Option Nat) (ms2 : List Mismatch),
      validate_or_relocate r lines u ms2 = .error (.resolveOutOfRange r.line lines.length) := by
    intro u ms2
    simp only [validate_or_relocate]
    rw [if_pos (Or.inr h)]
  refine ⟨hval unique ms, fun anchor txt hp => ?_⟩
  simp only [apply_hashline_edits, parseSpecs, hp, List.isEmpty_cons, Bool.false_eq_true,
    if_false, validateSpecs, hval]

/-- C7 witness: line 5 in a one-line file is fatal, through both the resolver
and a whole batch. -/
theorem claim_C7_out_of_range_witness :
    validate_or_relocate { line := 5, hash := "aaaa" } ["x"] (fun _ => none) [] =
      .error (.resolveOutOfRange 5 1) ∧
    apply_hashline_edits ["x"] [.setLine { anchor := "5:aaaa", new_text := "t" }] =
      .error (.resolveOutOfRange 5 1) := by
  have h := claim_C7_out_of_range { line := 5, hash := "aaaa" } ["x"] (fun _ => none) []
    (by decide)
  exact ⟨h.1, h.2 "5:aaaa" "t" (by decide)⟩

/-- C10: an empty replacement text splits to zero lines, so a resolved
`SetLine` deletes its line and a resolved `ReplaceRange` deletes the whole
inclusive range, strictly shortening the line sequence. -/
theorem claim_C10_empty_replacement (lines : List String) (r s e : LineRef)
    (h1 : 1 ≤ r.line) (h2 : r.line ≤ lines.length)
    (h3 : 1 ≤ s.line) (h4 : s.line ≤ e.line) (h5 : e.line ≤ lines.length) :
    split_dst_lines (String.mk []) = [] ∧
    applyOne lines (.Single r (String.mk [])) =
      .ok (lines.take (r.line - 1) ++ lines.drop r.line) ∧
    (lines.take (r.line - 1) ++ lines.drop r.line).length = lines.length - 1 ∧
    applyOne lines (.Range s e (String.mk [])) =
      .ok (lines.take (s.line - 1) ++ lines.drop e.line) ∧
    (lines.take (s.line - 1) ++ lines.drop e.line).length =
      lines.length - (e.line - s.line + 1) ∧
    lines.length - 1 < lines.length := by
  refine ⟨rfl, ?_, ?_, ?_, ?_, by omega⟩
  · simp only [applyOne, split_dst_lines, if_pos rfl]
    rw [if_neg (by omega)]
    have : r.line - 1 + 1 = r.line := by omega
    simp [this]
  · simp only [List.length_append, List.length_take, List.length_drop]
    omega
  · simp only [applyOne, split_dst_lines, if_pos rfl]
    rw [if_neg (by omega), if_neg (by omega)]
    have : e.line - 1 + 1 = e.line := by omega
    simp [this]
  · simp only [List.length_append, List.length_take, List.length_drop]
    omega

/-- C10 witness: deleting line 2 of a three-line file, and range 1–2. -/
theorem claim_C10_empty_replacement_witness :
    split_dst_lines (String.mk []) = [] ∧
    applyOne ["a", "b", "c"] (.Single { line := 2, hash := "x" } (String.mk [])) =
      .ok (["a", "b", "c"].take 1 ++ ["a", "b", "c"].drop 2) ∧
    (["a", "b", "c"].take 1 ++ ["a", "b", "c"].drop 2).length = ["a", "b", "c"].length - 1 ∧
    applyOne ["a", "b", "c"]
        (.Range { line := 1, hash := "y" } { line := 2, hash := "z" } (String.mk [])) =
      .ok (["a", "b", "c"].take 0 ++ ["a", "b", "c"].drop 2) ∧
    (["a", "b", "c"].take 0 ++ ["a", "b", "c"].drop 2).length =
      ["a", "b", "c"].length - (2 - 1 + 1) ∧
    ["a", "b", "c"].length - 1 < ["a", "b", "c"].length :=
  claim_C10_empty_replacement ["a", "b", "c"] { line := 2, hash := "x" }
    { line := 1, hash := "y" } { line := 2, hash := "z" }
    (by decide) (by decide) (by decide) (by decide) (by decide)

/-- C8: anchor parsing succeeds exactly when the token has exactly one `:`
separator (equivalently, the split has exactly two parts), the line portion
parses as a positive integer, and the hash portion is non-empty after
trimming; on success the returned reference has `line ≥ 1` and carries the
trimmed, lower-cased hash. -/
theorem claim_C8_anchor_parsing (s : String) :
    ((∃ r, parse_line_ref s = .ok r) ↔
      ∃ a b n, splitSep ':' s.data = [a, b] ∧ parseUsize a = some n ∧ 0 < n ∧
        trimRust b ≠ []) ∧
    (∀ r, parse_line_ref s = .ok r → 1 ≤ r.line ∧
      ∃ a b, splitSep ':' s.data = [a, b] ∧ parseUsize a = some r.line ∧
        r.hash = String.mk (toAsciiLower (trimRust b))) ∧
    (splitSep ':' s.data).length = s.data.count ':' + 1 := by
  refine ⟨⟨?_, ?_⟩, ?_, splitSep_length ':' s.data⟩
  · rintro ⟨r, hr⟩
    obtain ⟨a, b, hsp, hpu, hn, hh, _⟩ := (parse_line_ref_ok_iff s r).mp hr
    exact ⟨a, b, r.line, hsp, hpu, Nat.pos_of_ne_zero hn, hh⟩
  · rintro ⟨a, b, n, hsp, hpu, hn, hh⟩
    have hne : n ≠ 0 := by omega
    exact ⟨{ line := n, hash := String.mk (toAsciiLower (trimRust b)) },
      (parse_line_ref_ok_iff s _).mpr ⟨a, b, hsp, hpu, hne, hh, rfl⟩⟩
  · intro r hr
    obtain ⟨a, b, hsp, hpu, hn, _, hhash⟩ := (parse_line_ref_ok_iff s r).mp hr
    exact ⟨by omega, a, b, hsp, hpu, hhash⟩

/-- C8 witness: the token `12:ABcd` parses to line 12 with hash `abcd`;
conditions instantiated at that token. -/
theorem claim_C8_anchor_parsing_witness :
    (∃ r, parse_line_ref ("12:ABcd") = .ok r) ∧
    (∀ r, parse_line_ref ("12:ABcd") = .ok r → 1 ≤ r.line) := by
  have h := claim_C8_anchor_parsing ("12:ABcd")
  refine ⟨h.1.mpr ?_, fun r hr => (h.2.1 r hr).1⟩
  exact ⟨['1', '2'], ['A', 'B', 'c', 'd'], 12, by decide, by decide, by decide, by decide⟩

theorem firstIdx_eq_some (h : String) (l : List String) (i : Nat)
    (hf : firstIdx h l = some i) : i < l.length ∧ l.getD i (String.mk []) = h := by
  induction l generalizing i with
  | nil => simp [firstIdx] at hf
  | cons x xs ih =>
    simp only [firstIdx] at hf
    by_cases hx : x = h
    · rw [if_pos hx] at hf
      have h0 : i = 0 := (Option.some.inj hf).symm
      subst h0
      simpa using hx
    · rw [if_neg hx] at hf
      cases hj : firstIdx h xs with
      | none => rw [hj] at hf; simp at hf
      | some j =>
        rw [hj] at hf
        simp only [Option.map_some'] at hf
        have hji : j + 1 = i := Option.some.inj hf
        subst hji
        obtain ⟨hlt, hgd⟩ := ih j hj
        exact ⟨by simpa using Nat.succ_lt_succ hlt, by simpa using hgd⟩

theorem firstIdx_of_mem (h : String) (l : List String) (hm : h ∈ l) :
    ∃ i, firstIdx h l = some i := by
  induction l with
  | nil => simp at hm
  | cons x xs ih =>
    by_cases hx : x = h
    · exact ⟨0, by simp [firstIdx, hx]⟩
    · have hxs : h ∈ xs := by
        rcases List.mem_cons.mp hm with he | hxs2
        · exact absurd he.symm hx
        · exact hxs2
      obtain ⟨j, hj⟩ := ih hxs
      exact ⟨j + 1, by simp [firstIdx, hx, hj]⟩

theorem getD_mem_of_lt (l : List String) (k : Nat) (d : String) (hk : k < l.length) :
    l.getD k d ∈ l := by
  rw [List.getD_eq_getElem l d hk]
  exact List.getElem_mem hk

theorem count_one_unique (h : String) : ∀ l : List String, l.count h = 1 →
    ∀ j k, j < l.length → k < l.length →
      l.getD j (String.mk []) = h → l.getD k (String.mk []) = h → j = k := by
  intro l
  induction l with
  | nil => intro _ j k hj; simp at hj
  | cons x xs ih =>
    intro hc j k hj hk hgj hgk
    rw [List.count_cons] at hc
    by_cases hx : (x == h) = true
    · rw [if_pos hx] at hc
      have hc0 : xs.count h = 0 := by omega
      have hnm : h ∉ xs := List.count_eq_zero.mp hc0
      match j, k with
      | 0, 0 => rfl
      | 0, k + 1 =>
        exfalso
        simp only [List.getD_cons_succ] at hgk
        have hk2 : k < xs.length := by simpa using hk
        have := getD_mem_of_lt xs k (String.mk []) hk2
        rw [hgk] at this
        exact hnm this
      | j + 1, 0 =>
        exfalso
        simp only [List.getD_cons_succ] at hgj
        have hj2 : j < xs.length := by simpa using hj
        have := getD_mem_of_lt xs j (String.mk []) hj2
        rw [hgj] at this
        exact hnm this
      | j + 1, k + 1 =>
        exfalso
        simp only [List.getD_cons_succ] at hgj
        have hj2 : j < xs.length := by simpa using hj
        have := getD_mem_of_lt xs j (String.mk []) hj2
        rw [hgj] at this
        exact hnm this
    · rw [if_neg hx] at hc
      have hxne : x ≠ h := by simpa using hx
      match j, k with
      | 0, _ =>
        exfalso
        simp only [List.getD_cons_zero] at hgj
        exact hxne hgj
      | j + 1, 0 =>
        exfalso
        simp only [List.getD_cons_zero] at hgk
        exact hxne hgk
      | j + 1, k + 1 =>
        simp only [List.getD_cons_succ] at hgj hgk
        have hj2 : j < xs.length := by simpa using hj
        have hk2 : k < xs.length := by simpa using hk
        have := ih (by omega) j k hj2 hk2 hgj hgk
        omega

theorem mapHash_getD (lines : List String) (j : Nat) (hj : j < lines.length) :
    (lines.map compute_line_hash).getD j (String.mk []) =
      compute_line_hash (lines.getD j (String.mk [])) := by
  rw [List.getD_eq_getElem _ _ (by simpa using hj), List.getD_eq_getElem _ _ hj,
    List.getElem_map]

/-- C2: for an in-bounds anchor whose stored hash mismatches its line,
resolution relocates to the unique line carrying that hash exactly when the
hash occurs once in the pre-edit sequence; with zero or several occurrences a
mismatch record `(line, expected, actual)` is collected instead and no first
match is silently chosen. -/
theorem claim_C2_relocation (r : LineRef) (lines : List String) (ms : List Mismatch)
    (h1 : 1 ≤ r.line) (h2 : r.line ≤ lines.length)
    (h3 : compute_line_hash (lines.getD (r.line - 1) (String.mk [])) ≠ r.hash) :
    (hashCount lines r.hash = 1 →
      ∃ i, i < lines.length ∧
        compute_line_hash (lines.getD i (String.mk [])) = r.hash ∧
        (∀ j, j < lines.length →
          compute_line_hash (lines.getD j (String.mk [])) = r.hash → j = i) ∧
        validate_or_relocate r lines (uniqueLine lines) ms =
          .ok ({ line := i + 1, hash := r.hash }, ms)) ∧
    (hashCount lines r.hash ≠ 1 →
      validate_or_relocate r lines (uniqueLine lines) ms =
        .ok (r, ms ++ [(r.line, r.hash,
          compute_line_hash (lines.getD (r.line - 1) (String.mk [])))])) := by
  have hguard : ¬(r.line < 1 ∨ r.line > lines.length) := by omega
  constructor
  · intro hcnt
    have hmem : r.hash ∈ lines.map compute_line_hash := by
      have hpos : 0 < (lines.map compute_line_hash).count r.hash := by
        rw [hashCount] at hcnt
        omega
      exact List.count_pos_iff.mp hpos
    obtain ⟨i, hfi⟩ := firstIdx_of_mem r.hash (lines.map compute_line_hash) hmem
    obtain ⟨hilt, hgd⟩ := firstIdx_eq_some r.hash (lines.map compute_line_hash) i hfi
    have hilt2 : i < lines.length := by simpa using hilt
    have hudi : compute_line_hash (lines.getD i (String.mk [])) = r.hash := by
      rw [← mapHash_getD lines i hilt2]
      exact hgd
    refine ⟨i, hilt2, hudi, ?_, ?_⟩
    · intro j hj hgj
      refine count_one_unique r.hash (lines.map compute_line_hash) hcnt j i
        (by simpa using hj) hilt ?_ hgd
      rw [mapHash_getD lines j hj]
      exact hgj
    · have hu : uniqueLine lines r.hash = some (i + 1) := by
        simp only [uniqueLine]
        rw [if_pos hcnt, hfi]
        rfl
      simp only [validate_or_relocate]
      rw [if_neg hguard, if_neg h3]
      simp only [hu]
  · intro hcnt
    have hu : uniqueLine lines r.hash = none := by
      simp only [uniqueLine]
      rw [if_neg hcnt]
    simp only [validate_or_relocate]
    rw [if_neg hguard, if_neg h3]
    simp only [hu]

/-- C2 witness: in `["alpha", "beta"]` the stale anchor `1:f589` (the
fingerprint of `beta`, unique in the file) is relocated to line 2. -/
theorem claim_C2_relocation_witness :
    ∃ i, i < (["alpha", "beta"] : List String).length ∧
      compute_line_hash ((["alpha", "beta"] : List String).getD i (String.mk [])) = "f589" ∧
      (∀ j, j < (["alpha", "beta"] : List String).length →
        compute_line_hash ((["alpha", "beta"] : List String).getD j (String.mk [])) = "f589" →
          j = i) ∧
      validate_or_relocate { line := 1, hash := "f589" } ["alpha", "beta"]
          (uniqueLine ["alpha", "beta"]) [] =
        .ok ({ line := i + 1, hash := "f589" }, []) :=
  (claim_C2_relocation { line := 1, hash := "f589" } ["alpha", "beta"] []
    (by decide) (by decide) (by decide)).1 (by decide)

theorem sort_key_of_replace (sp : ParsedSpec) (h : isReplaceSpec sp = true) :
    sort_key sp = (0, 9) := by
  cases sp
  case ReplaceText _ _ _ => rfl
  all_goals simp [isReplaceSpec] at h

theorem sort_key_snd_of_setrange (sp : ParsedSpec) (h : isSetOrRangeSpec sp = true) :
    (sort_key sp).2 = 0 := by
  cases sp
  case Single _ _ => rfl
  case Range _ _ _ => rfl
  all_goals simp [isSetOrRangeSpec] at h

theorem sort_key_snd_of_insert (sp : ParsedSpec) (h : isInsertSpec sp = true) :
    (sort_key sp).2 = 1 := by
  cases sp
  case InsertAfter _ _ => rfl
  all_goals simp [isInsertSpec] at h

/-- C3: the pre-mutation sort orders anchor-addressed operations by descending
sort key — descending resolved line, `ReplaceRange` keyed by its end line,
`InsertAfter` keyed strictly after same-line `SetLine`/`ReplaceRange` — and
places every `ReplaceSubstring` operation after all anchor-addressed ones, as a
permutation of the parsed batch. -/
theorem claim_C3_ordering (parsed : List ParsedSpec)
    (hpos : ∀ sp ∈ parsed, isReplaceSpec sp = false → 1 ≤ (sort_key sp).1) :
    List.Perm (sortSpecs parsed) parsed ∧
    List.Pairwise specOrder (sortSpecs parsed) ∧
    List.Pairwise (fun a b => (sort_key b).1 ≤ (sort_key a).1) (sortSpecs parsed) ∧
    List.Pairwise (fun a b => isReplaceSpec a = true → isReplaceSpec b = true)
      (sortSpecs parsed) ∧
    List.Pairwise (fun a b => ¬(isSetOrRangeSpec a = true ∧ isInsertSpec b = true ∧
      (sort_key a).1 = (sort_key b).1)) (sortSpecs parsed) := by
  have hperm : List.Perm (sortSpecs parsed) parsed := List.perm_insertionSort specOrder parsed
  have hsorted : List.Pairwise specOrder (sortSpecs parsed) :=
    List.sorted_insertionSort specOrder parsed
  refine ⟨hperm, hsorted, ?_, ?_, ?_⟩
  · refine hsorted.imp ?_
    intro a b hab
    simp only [specOrder, keyLe] at hab
    omega
  · refine hsorted.imp_of_mem ?_
    intro a b _ hb hab hra
    by_contra hrb
    have hrb2 : isReplaceSpec b = false := by
      cases hh : isReplaceSpec b
      · rfl
      · exact absurd hh hrb
    have hbpos : 1 ≤ (sort_key b).1 := hpos b (hperm.mem_iff.mp hb) hrb2
    have hka : sort_key a = (0, 9) := sort_key_of_replace a hra
    simp only [specOrder, keyLe, hka] at hab
    omega
  · refine hsorted.imp ?_
    intro a b hab hbad
    obtain ⟨hsa, hib, heq⟩ := hbad
    have h2a : (sort_key a).2 = 0 := sort_key_snd_of_setrange a hsa
    have h2b : (sort_key b).2 = 1 := sort_key_snd_of_insert b hib
    simp only [specOrder, keyLe] at hab
    omega

/-- C3 witness: a batch listing a substring edit first and a same-line
`SetLine`/`InsertAfter` pair is reordered accordingly. -/
theorem claim_C3_ordering_witness :
    List.Perm
      (sortSpecs [.ReplaceText "q" "w" false, .Single { line := 2, hash := "aa" } "x",
        .InsertAfter { line := 2, hash := "bb" } "y"])
      [.ReplaceText "q" "w" false, .Single { line := 2, hash := "aa" } "x",
        .InsertAfter { line := 2, hash := "bb" } "y"] ∧
    List.Pairwise specOrder
      (sortSpecs [.ReplaceText "q" "w" false, .Single { line := 2, hash := "aa" } "x",
        .InsertAfter { line := 2, hash := "bb" } "y"]) ∧
    List.Pairwise (fun a b => (sort_key b).1 ≤ (sort_key a).1)
      (sortSpecs [.ReplaceText "q" "w" false, .Single { line := 2, hash := "aa" } "x",
        .InsertAfter { line := 2, hash := "bb" } "y"]) ∧
    List.Pairwise (fun a b => isReplaceSpec a = true → isReplaceSpec b = true)
      (sortSpecs [.ReplaceText "q" "w" false, .Single { line := 2, hash := "aa" } "x",
        .InsertAfter { line := 2, hash := "bb" } "y"]) ∧
    List.Pairwise (fun a b => ¬(isSetOrRangeSpec a = true ∧ isInsertSpec b = true ∧
      (sort_key a).1 = (sort_key b).1))
      (sortSpecs [.ReplaceText "q" "w" false, .Single { line := 2, hash := "aa" } "x",
        .InsertAfter { line := 2, hash := "bb" } "y"]) :=
  claim_C3_ordering
    [.ReplaceText "q" "w" false, .Single { line := 2, hash := "aa" } "x",
      .InsertAfter { line := 2, hash := "bb" } "y"]
    (by decide)

theorem keyLe_bounds (x : Nat × Nat) (b c : Nat) (h : keyLe x (b, c)) :
    x.1 < b ∨ (x.1 = b ∧ x.2 ≤ c) := h

theorem sort_key_fst_of_anchor (sp : ParsedSpec) (h : isAnchorSpec sp = true) :
    (sort_key sp).1 = highOf sp := by
  cases sp
  case Single _ _ => rfl
  case Range _ _ _ => rfl
  case InsertAfter _ _ => rfl
  case ReplaceText _ _ _ => simp [isAnchorSpec] at h

theorem uniqueLine_bounds (lines : List String) (h : String) (v : Nat)
    (hu : uniqueLine lines h = some v) : 1 ≤ v ∧ v ≤ lines.length := by
  simp only [uniqueLine] at hu
  split at hu
  · cases hf : firstIdx h (lines.map compute_line_hash) with
    | none => rw [hf] at hu; simp at hu
    | some i =>
      rw [hf] at hu
      simp only [Option.map_some'] at hu
      have hv : i + 1 = v := Option.some.inj hu
      have hlt := (firstIdx_eq_some h _ i hf).1
      simp only [List.length_map] at hlt
      omega
  · simp at hu

theorem validate_ok_bounds (r r2 : LineRef) (lines : List String) (ms ms2 : List Mismatch)
    (hok : validate_or_relocate r lines (uniqueLine lines) ms = .ok (r2, ms2)) :
    1 ≤ r2.line ∧ r2.line ≤ lines.length := by
  simp only [validate_or_relocate] at hok
  split at hok
  · exact absurd hok (by simp)
  · rename_i hguard
    split at hok
    · have h12 := Except.ok.inj hok
      rw [Prod.mk.injEq] at h12
      obtain ⟨h1, _⟩ := h12
      rw [← h1]
      omega
    · split at hok
      · rename_i v hu
        have h12 := Except.ok.inj hok
        rw [Prod.mk.injEq] at h12
        obtain ⟨h1, _⟩ := h12
        have hb := uniqueLine_bounds lines r.hash v hu
        rw [← h1]
        simpa using hb
      · have h12 := Except.ok.inj hok
        rw [Prod.mk.injEq] at h12
        obtain ⟨h1, _⟩ := h12
        rw [← h1]
        omega

theorem validateSpecs_wf (lines : List String) :
    ∀ (specs out : List ParsedSpec) (ms ms2 : List Mismatch),
      validateSpecs lines (uniqueLine lines) specs ms = .ok (out, ms2) →
      ∀ sp ∈ out, specWF lines.length sp := by
  intro specs
  induction specs with
  | nil =>
    intro out ms ms2 h sp hsp
    simp only [validateSpecs] at h
    have h12 := Except.ok.inj h
    rw [Prod.mk.injEq] at h12
    rw [← h12.1] at hsp
    simp at hsp
  | cons spec rest ih =>
    intro out ms ms2 h sp hsp
    cases spec with
    | Single r dst =>
      simp only [validateSpecs] at h
      split at h
      · exact absurd h (by simp)
      · rename_i r2 ms2' hveq
        split at h
        · exact absurd h (by simp)
        · rename_i tail ms3 hteq
          have h12 := Except.ok.inj h
          rw [Prod.mk.injEq] at h12
          rw [← h12.1] at hsp
          rcases List.mem_cons.mp hsp with he | hm
          · subst he
            intro _
            have hb := validate_ok_bounds r r2 lines ms ms2' hveq
            exact ⟨hb.1, le_refl _, hb.2⟩
          · exact ih tail ms2' ms3 hteq sp hm
    | Range s e dst =>
      simp only [validateSpecs] at h
      split at h
      · exact absurd h (by simp)
      · rename_i s2 ms2' hveq
        split at h
        · exact absurd h (by simp)
        · rename_i e2 ms3 hveq2
          split at h
          · exact absurd h (by simp)
          · rename_i hse
            split at h
            · exact absurd h (by simp)
            · rename_i tail ms4 hteq
              have h12 := Except.ok.inj h
              rw [Prod.mk.injEq] at h12
              rw [← h12.1] at hsp
              rcases List.mem_cons.mp hsp with he | hm
              · subst he
                intro _
                have hb1 := validate_ok_bounds s s2 lines ms ms2' hveq
                have hb2 := validate_ok_bounds e e2 lines ms2' ms3 hveq2
                simp only [lowOf, highOf]
                omega
              · exact ih tail ms3 ms4 hteq sp hm
    | InsertAfter a dst =>
      simp only [validateSpecs] at h
      split at h
      · exact absurd h (by simp)
      · rename_i a2 ms2' hveq
        split at h
        · exact absurd h (by simp)
        · rename_i tail ms3 hteq
          have h12 := Except.ok.inj h
          rw [Prod.mk.injEq] at h12
          rw [← h12.1] at hsp
          rcases List.mem_cons.mp hsp with he | hm
          · subst he
            intro _
            have hb := validate_ok_bounds a a2 lines ms ms2' hveq
            exact ⟨hb.1, le_refl _, hb.2⟩
          · exact ih tail ms2' ms3 hteq sp hm
    | ReplaceText old new_ al =>
      simp only [validateSpecs] at h
      split at h
      · exact absurd h (by simp)
      · rename_i tail ms3 hteq
        have h12 := Except.ok.inj h
        rw [Prod.mk.injEq] at h12
        rw [← h12.1] at hsp
        rcases List.mem_cons.mp hsp with he | hm
        · subst he
          intro hA
          simp [isAnchorSpec] at hA
        · exact ih tail ms ms3 hteq sp hm

theorem applyOne_replace_err (lines : List String) (old new_ : String) (al : Bool)
    (err : EditError) (h : applyOne lines (.ReplaceText old new_ al) = .error err) :
    err = .notFound := by
  simp only [applyOne] at h
  split at h
  · exact absurd h (by simp)
  · split at h
    · exact absurd h (by simp)
    · exact (Except.error.inj h).symm

/-- The central invariant: a sorted batch of validated, pairwise-disjoint specs
never triggers the defensive out-of-bounds re-checks of the application loop. -/
theorem applySpecs_noDefensive : ∀ (l : List ParsedSpec) (lines : List String),
    List.Pairwise specOrder l →
    (∀ sp ∈ l, specWF lines.length sp) →
    List.Pairwise disjointSpecs l →
    noDefensive (applySpecs lines l) := by
  intro l
  induction l with
  | nil => intro lines _ _ _; trivial
  | cons spec rest ih =>
    intro lines hsort hwf hdisj
    have hsort2 := (List.pairwise_cons.mp hsort).2
    have hdisj2 := (List.pairwise_cons.mp hdisj).2
    cases spec with
    | ReplaceText old new_ al =>
      have htail : ∀ sp ∈ rest, isAnchorSpec sp = false := by
        intro sp hsp
        by_contra hA
        have hA2 : isAnchorSpec sp = true := by
          cases hh : isAnchorSpec sp
          · exact absurd hh hA
          · rfl
        obtain ⟨hl1, hl2, _⟩ := hwf sp (List.mem_cons_of_mem _ hsp) hA2
        have hord := (List.pairwise_cons.mp hsort).1 sp hsp
        have hkey := sort_key_fst_of_anchor sp hA2
        have hord2 := keyLe_bounds (sort_key sp) 0 9 hord
        rw [hkey] at hord2
        omega
      simp only [applySpecs]
      split
      · rename_i err heq
        rw [applyOne_replace_err lines old new_ al err heq]
        trivial
      · rename_i lines2 _
        apply ih lines2 hsort2 ?_ hdisj2
        intro sp hsp hA
        rw [htail sp hsp] at hA
        exact absurd hA (by simp)
    | Single r dst =>
      have e1 : lowOf (ParsedSpec.Single r dst) = r.line := rfl
      have e2 : highOf (ParsedSpec.Single r dst) = r.line := rfl
      obtain ⟨hlo, _, hhi⟩ := hwf _ (List.mem_cons_self _ _) rfl
      rw [e1] at hlo
      rw [e2] at hhi
      simp only [applySpecs, applyOne]
      rw [if_neg (show ¬(r.line - 1 ≥ lines.length) by omega)]
      apply ih _ hsort2 ?_ hdisj2
      intro sp hsp hA
      obtain ⟨hl1, hl2, hl3⟩ := hwf sp (List.mem_cons_of_mem _ hsp) hA
      refine ⟨hl1, hl2, ?_⟩
      have hord := (List.pairwise_cons.mp hsort).1 sp hsp
      have hdis := (List.pairwise_cons.mp hdisj).1 sp hsp rfl hA
      rw [e1, e2] at hdis
      have hkey := sort_key_fst_of_anchor sp hA
      have hord2 := keyLe_bounds (sort_key sp) r.line 0 hord
      rw [hkey] at hord2
      simp only [List.length_append, List.length_take, List.length_drop]
      omega
    | Range s e dst =>
      have e1 : lowOf (ParsedSpec.Range s e dst) = s.line := rfl
      have e2 : highOf (ParsedSpec.Range s e dst) = e.line := rfl
      obtain ⟨hlo, hlohi, hhi⟩ := hwf _ (List.mem_cons_self _ _) rfl
      rw [e1] at hlo
      rw [e1, e2] at hlohi
      rw [e2] at hhi
      simp only [applySpecs, applyOne]
      rw [if_neg (show ¬(s.line - 1 ≥ lines.length ∨ e.line - 1 ≥ lines.length) by omega)]
      rw [if_neg (show ¬(s.line - 1 > e.line - 1) by omega)]
      apply ih _ hsort2 ?_ hdisj2
      intro sp hsp hA
      obtain ⟨hl1, hl2, hl3⟩ := hwf sp (List.mem_cons_of_mem _ hsp) hA
      refine ⟨hl1, hl2, ?_⟩
      have hord := (List.pairwise_cons.mp hsort).1 sp hsp
      have hdis := (List.pairwise_cons.mp hdisj).1 sp hsp rfl hA
      rw [e1, e2] at hdis
      have hkey := sort_key_fst_of_anchor sp hA
      have hord2 := keyLe_bounds (sort_key sp) e.line 0 hord
      rw [hkey] at hord2
      simp only [List.length_append, List.length_take, List.length_drop]
      omega
    | InsertAfter a dst =>
      have e1 : lowOf (ParsedSpec.InsertAfter a dst) = a.line := rfl
      have e2 : highOf (ParsedSpec.InsertAfter a dst) = a.line := rfl
      obtain ⟨hlo, _, hhi⟩ := hwf _ (List.mem_cons_self _ _) rfl
      rw [e1] at hlo
      rw [e2] at hhi
      simp only [applySpecs, applyOne]
      rw [if_neg (show ¬(a.line > lines.length) by omega)]
      apply ih _ hsort2 ?_ hdisj2
      intro sp hsp hA
      obtain ⟨hl1, hl2, hl3⟩ := hwf sp (List.mem_cons_of_mem _ hsp) hA
      refine ⟨hl1, hl2, ?_⟩
      simp only [List.length_append, List.length_take, List.length_drop]
      omega

/-- C9 counterexample: validation of the two-element batch
`[SetLine 1:93c8 "", SetLine 1:93c8 ""]` against `["alpha"]` succeeds with an
empty mismatch set — every anchor resolves — yet application reaches the
defensive `line does not exist` branch: the first empty `SetLine` deletes
line 1, after which the second one is out of bounds. -/
theorem claim_C9_counterexample :
    parseSpecs [.setLine { anchor := "1:93c8", new_text := "" },
        .setLine { anchor := "1:93c8", new_text := "" }] =
      .ok [.Single { line := 1, hash := "93c8" } "",
        .Single { line := 1, hash := "93c8" } ""] ∧
    validateSpecs ["alpha"] (uniqueLine ["alpha"])
        [.Single { line := 1, hash := "93c8" } "",
          .Single { line := 1, hash := "93c8" } ""] [] =
      .ok ([.Single { line := 1, hash := "93c8" } "",
        .Single { line := 1, hash := "93c8" } ""], []) ∧
    apply_hashline_edits ["alpha"]
        [.setLine { anchor := "1:93c8", new_text := "" },
          .setLine { anchor := "1:93c8", new_text := "" }] =
      .error (.applyMissingLine 1 0) := by
  refine ⟨by decide, by decide, by decide⟩

/-- C9 (amended): when every anchor resolves with an empty mismatch set AND
the resolved spans of the anchor-addressed operations are pairwise disjoint,
the defensive `line does not exist` / `range out of bounds` re-checks of the
application loop are unreachable. -/
theorem claim_C9_defensive_unreachable (lines : List String) (edits : List HashlineEdit)
    (parsed validated : List ParsedSpec)
    (hne : edits ≠ [])
    (hp : parseSpecs edits = .ok parsed)
    (hv : validateSpecs lines (uniqueLine lines) parsed [] = .ok (validated, []))
    (hd : List.Pairwise disjointSpecs validated) :
    noDefensive (apply_hashline_edits lines edits) := by
  have hwf : ∀ sp ∈ validated, specWF lines.length sp :=
    validateSpecs_wf lines parsed validated [] [] hv
  have hnotempty : edits.isEmpty = false := by
    cases edits
    · exact absurd rfl hne
    · rfl
  simp only [apply_hashline_edits, hnotempty, Bool.false_eq_true, if_false, hp, hv]
  rw [if_neg (by simp)]
  apply applySpecs_noDefensive
  · exact List.sorted_insertionSort specOrder validated
  · intro sp hsp
    exact hwf sp ((List.perm_insertionSort specOrder validated).mem_iff.mp hsp)
  · have hsymm : ∀ {x y : ParsedSpec}, disjointSpecs x y → disjointSpecs y x := by
      intro x y hxy hy hx
      exact (hxy hx hy).symm
    exact ((List.perm_insertionSort specOrder validated).pairwise_iff hsymm).mpr hd

/-- C9 amended-claim witness: a disjoint one-edit batch on a two-line file
never touches the defensive branches. -/
theorem claim_C9_defensive_unreachable_witness :
    noDefensive (apply_hashline_edits ["alpha", "beta"]
      [.setLine { anchor := "1:93c8", new_text := "X" }]) :=
  claim_C9_defensive_unreachable ["alpha", "beta"]
    [.setLine { anchor := "1:93c8", new_text := "X" }]
    [.Single { line := 1, hash := "93c8" } "X"]
    [.Single { line := 1, hash := "93c8" } "X"]
    (by decide) (by decide) (by decide)
    (List.pairwise_singleton _ _)

end Hashline
